import Mathlib

/-!
Shallow embedding of the STARGEN spatial-statistics core (`scr/func.py`).

Conventions used throughout:
* H3 cell identifiers and sample identifiers are modelled as `ℕ`.
* Python floats are modelled as `ℚ`, except where the code can produce the
  special values `nan` / `inf` (numpy mean of an empty slice, the `float('inf')`
  initializer): these are modelled by the `PyFloat` type below.
* Python dicts are modelled as association lists in insertion order.
* External libraries (h3 adjacency, haversine, scipy, statsmodels) are
  parameters of the embedded functions; only behaviour documented by those
  libraries and needed by a claim is modelled.
-/

namespace Stargen

/-- A Python float value as produced by the numeric paths of `func.py`:
either an ordinary number (modelled exactly as a rational), `float('nan')`
(numpy's mean of an empty slice), or the infinities (`float('inf')` is the
initializer of the minimum scan in `find_closest_population`). -/
inductive PyFloat where
  | num : ℚ → PyFloat
  | nan : PyFloat
  | posinf : PyFloat
  | neginf : PyFloat
deriving DecidableEq, Repr

/-- Python `<` on floats: any comparison with `nan` is `False`. -/
def pyLt : PyFloat → PyFloat → Bool
  | .nan, _ => false
  | _, .nan => false
  | .neginf, .neginf => false
  | .neginf, _ => true
  | _, .neginf => false
  | .posinf, _ => false
  | .num _, .posinf => true
  | .num a, .num b => decide (a < b)

/-- Python `round(x, 2)`. Exact rational rounding to 2 decimal places; Python's
round-half-to-even behaviour on floats differs only on exact ties, which no
claim depends on. -/
def round2 (q : ℚ) : ℚ := (round (q * 100) : ℤ) / 100

/-- Sum of the flattened submatrix `m[xs, ys]` (row-major, as
`DataFrame.loc[xs, ys].values.flatten()` produces it). -/
def pairSum (xs ys : List ℕ) (m : ℕ → ℕ → ℚ) : ℚ :=
  (xs.map (fun a => (ys.map (fun b => m a b)).sum)).sum

/-- `calc_avg_dist` (func.py lines 33-45):
`dist_matrix.loc[samples_hex1, samples_hex2].values.flatten().mean()`.
numpy's `mean` of an empty array is `nan` (with a RuntimeWarning), not an
exception; otherwise it is the sum divided by the number of entries. -/
def calc_avg_dist (samples_hex1 samples_hex2 : List ℕ) (dist_matrix : ℕ → ℕ → ℚ) :
    PyFloat :=
  if samples_hex1.length * samples_hex2.length = 0 then .nan
  else .num (pairSum samples_hex1 samples_hex2 dist_matrix /
    (samples_hex1.length * samples_hex2.length : ℚ))

/-- `list(pair)[0]`: an element of the frozenset `pair`. For the singleton keys
this is applied to, it is the unique element; `min'` is a computable choice. -/
def keyElem (s : Finset ℕ) : ℕ :=
  if h : s.Nonempty then s.min' h else 0

/-- `get_hexagons` (func.py lines 185-201): splits a time-bin dict keyed by
frozensets of cells into the entries with singleton keys (re-keyed by the lone
cell, `list(pair)[0]`) and the entries whose key has more than one element.
Frozenset keys are modelled as `Finset ℕ`; the source builds them as
`frozenset([a])` or `frozenset([a, b])`, so they are nonempty. -/
def get_hexagons (time_bin : List (Finset ℕ × ℚ)) :
    List (Finset ℕ × ℚ) × List (ℕ × ℚ) :=
  ( time_bin.filter (fun e => 1 < e.1.card)
  , (time_bin.filter (fun e => e.1.card = 1)).map (fun e => (keyElem e.1, e.2)) )

/-- Python dict key-insertion order: first occurrence of every element, in
order of appearance. -/
def insertDedup {α : Type} [DecidableEq α] (l : List α) : List α :=
  l.foldl (fun acc x => if x ∈ acc then acc else acc ++ [x]) []

/-! ## `get_isolated_hex_and_barriers` (func.py lines 204-291), isolation part

Only the parts of the function that the claims about isolation depend on are
modelled: the list `hex_dist_to_direct_neighbors` and the derived
`isolated_hex`.  The barrier outputs (`barrier_lines`, `barrier_hex`,
`new_time_bin`) depend on h3 cell boundaries and `grid_path_cells` and are not
needed by any claim.

A dict key `frozenset([a, b])` converted by `pair = list(pair)` is modelled as
the ordered pair `(a, b)` in the (unspecified) order chosen by that conversion.
The direct-neighbor test `pair[0] in h3.grid_ring(pair[1], 1)[1]` is modelled
by an abstract predicate `isDirect` on that ordered pair. -/

/-- Contents appended to `hex_dist_to_direct_neighbors[c]` by the first loop
(lines 256-270): one entry per direct-neighbor pair, appended for `pair[0]`
and for `pair[1]`. -/
def hexDistPhase1 (time_bin : List ((ℕ × ℕ) × ℚ)) (isDirect : ℕ → ℕ → Bool)
    (c : ℕ) : List ℚ :=
  (time_bin.filter (fun e => isDirect e.1.1 e.1.2)).flatMap
    (fun e => (if e.1.1 = c then [e.2] else []) ++ (if e.1.2 = c then [e.2] else []))

/-- Contents appended to `hex_dist_to_direct_neighbors[c]` by the second loop
(lines 284-286): every pair's distance, for both members of the pair. -/
def hexDistPhase2 (time_bin : List ((ℕ × ℕ) × ℚ)) (c : ℕ) : List ℚ :=
  time_bin.flatMap
    (fun e => (if e.1.1 = c then [e.2] else []) ++ (if e.1.2 = c then [e.2] else []))

/-- Final contents of `hex_dist_to_direct_neighbors[c]` when line 289 reads it:
the direct-neighbor appends followed by the all-pairs appends. -/
def hexDistFinal (time_bin : List ((ℕ × ℕ) × ℚ)) (isDirect : ℕ → ℕ → Bool)
    (c : ℕ) : List ℚ :=
  hexDistPhase1 time_bin isDirect c ++ hexDistPhase2 time_bin c

/-- Key-insertion order of the defaultdict `hex_dist_to_direct_neighbors`:
both members of every direct pair (first loop), then both members of every
pair (second loop). -/
def hexDistKeys (time_bin : List ((ℕ × ℕ) × ℚ)) (isDirect : ℕ → ℕ → Bool) :
    List ℕ :=
  insertDedup
    ((time_bin.filter (fun e => isDirect e.1.1 e.1.2)).flatMap (fun e => [e.1.1, e.1.2])
      ++ time_bin.flatMap (fun e => [e.1.1, e.1.2]))

/-- `isolated_hex` (line 289): the keys of `hex_dist_to_direct_neighbors`
whose every recorded distance is `>= threshold`. -/
def get_isolated_hex (time_bin : List ((ℕ × ℕ) × ℚ)) (isDirect : ℕ → ℕ → Bool)
    (threshold : ℚ) : List ℕ :=
  (hexDistKeys time_bin isDirect).filter
    (fun c => (hexDistFinal time_bin isDirect c).all (fun d => threshold ≤ d))

/-! ## `get_neighbors` (func.py lines 74-112)

The Delaunay triangulation is performed by `scipy.spatial.Delaunay`, an
external library, and is a parameter `tri` of the embedding: it takes the
projected centroids and either returns the list of simplices (as index
triples) or fails.  `delaunayModel` below is a minimal concrete instance of
that parameter capturing the one documented scipy/qhull fact a claim needs:
triangulating fewer than 3 planar points raises `QhullError`; the triangle
list itself is not modelled (no claim depends on it). -/

/-- `tuple(sorted((i, j)))`. -/
def sortPair (p : ℕ × ℕ) : ℕ × ℕ :=
  if p.1 ≤ p.2 then p else (p.2, p.1)

/-- `neighbors.setdefault(k, []).append(v)` on an association list. -/
def setdefaultAppend (nb : List (ℕ × List ℕ)) (k v : ℕ) : List (ℕ × List ℕ) :=
  if nb.any (fun e => e.1 = k) then
    nb.map (fun e => if e.1 = k then (e.1, e.2 ++ [v]) else e)
  else nb ++ [(k, [v])]

/-- Minimal model of `scipy.spatial.Delaunay`: qhull cannot construct an
initial simplex from fewer than 3 planar points and raises `QhullError`.
The simplices of a successful triangulation are left abstract (empty); no
claim inspects them. -/
def delaunayModel (coords : List (ℚ × ℚ)) : Except String (List (ℕ × ℕ × ℕ)) :=
  if coords.length < 3 then .error "QhullError" else .ok []

/-- `get_neighbors` (lines 74-104): triangulate the centroids, take every
simplex edge (as a sorted index pair, deduplicated as the Python `set` does),
and record both endpoint cells as neighbors of each other. -/
def get_neighbors (tri : List (ℚ × ℚ) → Except String (List (ℕ × ℕ × ℕ)))
    (centroid : ℕ → ℚ × ℚ) (hexagons : List ℕ) :
    Except String (List (ℕ × List ℕ)) := do
  let coords := hexagons.map centroid
  let simplices ← tri coords
  let edges := insertDedup (simplices.flatMap
    (fun s => [sortPair (s.1, s.2.1), sortPair (s.2.1, s.2.2), sortPair (s.2.2, s.1)]))
  .ok (edges.foldl
    (fun nb e =>
      setdefaultAppend (setdefaultAppend nb (hexagons.getD e.1 0) (hexagons.getD e.2 0))
        (hexagons.getD e.2 0) (hexagons.getD e.1 0))
    [])

/-- Lines 106-112 of `calc_neighbor_dist`: call `get_neighbors`, then give
every hexagon that got no triangle edge an empty neighbor list. -/
def resolve_neighbors (tri : List (ℚ × ℚ) → Except String (List (ℕ × ℕ × ℕ)))
    (centroid : ℕ → ℚ × ℚ) (hexagons : List ℕ) :
    Except String (List (ℕ × List ℕ)) := do
  let nb ← get_neighbors tri centroid hexagons
  .ok (nb ++ (hexagons.filter (fun h => decide (h ∉ nb.map Prod.fst))).map (fun h => (h, [])))

/-! ## `impute_missing_hexagons` (func.py lines 375-423)

`h3.grid_disk(c, 1)` (the cell together with its ring-1 neighbors) is external
and is a parameter `disk`.  Dicts are association lists in insertion order. -/

/-- Python `dict.update`: values of existing keys are overwritten in place,
new keys are appended in order. -/
def dictUpdate (d new : List (ℕ × ℚ)) : List (ℕ × ℚ) :=
  d.map (fun e =>
    match new.find? (fun n => n.1 = e.1) with
    | some n => (e.1, n.2)
    | none => e)
    ++ new.filter (fun n => decide (n.1 ∉ d.map Prod.fst))

/-- `new_barrier_hex[n].append(barrier_hex[hexagon])` for one neighbor `n`:
the defaultdict is kept as its key-insertion order (first component) plus the
per-key list of collected values (second component). -/
def imputeContribStep (v : ℚ) (acc : List ℕ × (ℕ → List ℚ)) (n : ℕ) :
    List ℕ × (ℕ → List ℚ) :=
  ( if n ∈ acc.1 then acc.1 else acc.1 ++ [n]
  , fun x => if x = n then acc.2 x ++ [v] else acc.2 x )

/-- The body of the outer loop of `impute` (lines 401-406) for one resolved
hexagon `e`: every member of its disk-1 neighborhood that is not resolved
collects `e`'s value. -/
def imputeEntryStep (disk : ℕ → List ℕ) (barrier_hex_set : List ℕ)
    (acc : List ℕ × (ℕ → List ℚ)) (e : ℕ × ℚ) : List ℕ × (ℕ → List ℚ) :=
  ((disk e.1).filter (fun n => decide (n ∉ barrier_hex_set))).foldl
    (imputeContribStep e.2) acc

/-- The inner `impute` (lines 386-411), one round: every resolved hexagon
hands its value to each of its disk-1 neighbors that is not resolved
(`new_barrier_hex`); a neighbor with at least 3 collected values becomes
resolved with their rounded mean. -/
def imputeRound (disk : ℕ → List ℕ) (barrier_hex : List (ℕ × ℚ)) :
    List (ℕ × ℚ) :=
  let barrier_hex_set := barrier_hex.map Prod.fst
  let nb := barrier_hex.foldl (imputeEntryStep disk barrier_hex_set)
    (([] : List ℕ), (fun _ => ([] : List ℚ)))
  (nb.1.filter (fun c => 3 ≤ (nb.2 c).length)).map
    (fun c => (c, round2 ((nb.2 c).sum / ((nb.2 c).length : ℚ))))

/-- The cumulative resolved dict after `n` of the `num_runs` iterations of
`imputed_hex.update(impute(imputed_hex))`. -/
def imputeCum (disk : ℕ → List ℕ) (barrier_hex : List (ℕ × ℚ)) : ℕ → List (ℕ × ℚ)
  | 0 => barrier_hex
  | n + 1 =>
      let d := imputeCum disk barrier_hex n
      dictUpdate d (imputeRound disk d)

/-- `impute_missing_hexagons` (lines 375-423): iterate the single-round
imputation `num_runs` times on the cumulative dict, then drop every hexagon
that was in the original input. -/
def impute_missing_hexagons (disk : ℕ → List ℕ) (barrier_hex : List (ℕ × ℚ))
    (num_runs : ℕ) : List (ℕ × ℚ) :=
  (imputeCum disk barrier_hex num_runs).filter
    (fun e => decide (e.1 ∉ barrier_hex.map Prod.fst))

/-! ## `scale_distances` (func.py lines 426-486)

Frozenset dict keys are modelled as `List ℕ` in the iteration order used by
the `*pair` unpacking (one element for self-pairs, two otherwise).  External
pieces are parameters: `centroidDist a b` models
`haversine(h3.cell_to_latlng(a), h3.cell_to_latlng(b))`, and `log2f` models
`round(math.log2(.), 2)` (only ever applied here to positive ratios).  The
LOESS fit of the `exsiting_pred is None` branch is external
(`statsmodels.nonparametric.lowess`), so the prediction table `pred` — the
`gen_distances_pred` array of `(geo_km, expected_gen_dist)` rows — is always a
parameter, covering both the fitted and the supplied case. -/

/-- `get_km_distance` (lines 437-454): a fixed resolution-dependent value for
a self-pair (one unpacked argument, `hex2 is None`), the haversine distance
between the two cell centroids otherwise. -/
def get_km_distance (centroidDist : ℕ → ℕ → ℚ) (resolution : ℕ) (pair : List ℕ) : ℚ :=
  match pair with
  | [_] => 1281 / (265 / 100 : ℚ) ^ resolution
  | [a, b] => centroidDist a b
  | _ => 0

/-- `support[np.argmin(np.abs(support - x))]`: the support value nearest to
`x`, ties resolved to the first occurrence as `np.argmin` does; `ValueError`
on an empty array. -/
def nearestSupport (support : List ℚ) (x : ℚ) : Except String ℚ :=
  match support with
  | [] => .error "ValueError"
  | y :: ys => .ok (ys.foldl (fun best s => if |s - x| < |best - x| then s else best) y)

/-- Lines 473-484 for one pair: snap the geographic distance to the nearest
fitted support point, look up the first matching prediction row, then emit `0`
for an observed distance of exactly `0` and `round(log2(obs / pred), 2)`
otherwise. -/
def scaleStep (pred : List (ℚ × ℚ)) (log2f : ℚ → ℚ) (kmDistance gen_distance : ℚ) :
    Except String PyFloat := do
  let km ← if kmDistance ∈ pred.map Prod.fst then .ok kmDistance
    else nearestSupport (pred.map Prod.fst) kmDistance
  match (pred.filter (fun r => r.1 = km)).map Prod.snd with
  | [] => .error "IndexError"
  | gen_distance_pred :: _ =>
    if gen_distance = 0 then .ok (.num 0)
    else .ok (.num (log2f (gen_distance / gen_distance_pred)))

/-- `scale_distances` (lines 426-486) with a supplied prediction table: scale
every pair of the time bin in dict order. -/
def scale_distances (time_bin : List (List ℕ × ℚ)) (pred : List (ℚ × ℚ))
    (centroidDist : ℕ → ℕ → ℚ) (resolution : ℕ) (log2f : ℚ → ℚ) :
    Except String (List (List ℕ × PyFloat)) :=
  match time_bin with
  | [] => .ok []
  | e :: rest => do
    let v ← scaleStep pred log2f (get_km_distance centroidDist resolution e.1) e.2
    let tail ← scale_distances rest pred centroidDist resolution log2f
    .ok ((e.1, v) :: tail)

/-! ## `find_closest_population` (func.py lines 294-372)

The pandas plumbing (selecting the time bin, grouping samples by hexagon) is
external input shaping; the embedding receives its results directly:
`hexagons` is the bin's unique cell list and `samples` the per-cell sample-ID
lists (`samples_in_hex.get(c, [])` modelled by a total function defaulting to
`[]`). -/

/-- State of the scan over `hexagons` for one isolated cell: `best` holds
`(min_dist, closest_hex)` (`none` encodes the initial
`min_dist = float('inf')`, `closest_hex = None`), `lastDist` the loop variable
`distance` after the most recent iteration (`none` while unbound). -/
structure ScanState where
  best : Option (ℚ × ℕ)
  lastDist : Option PyFloat
deriving DecidableEq, Repr

/-- `float('inf')` or the current minimum, as compared by `distance < min_dist`. -/
def ScanState.minDist (st : ScanState) : PyFloat :=
  match st.best with
  | none => .posinf
  | some (md, _) => .num md

/-- The loop of lines 349-358: skip the isolated cell itself, compute the
average distance, and keep the strictly smaller value.  A `nan` distance never
satisfies `<`, so only `num` distances can become the minimum. -/
def fcpScan (samples : ℕ → List ℕ) (dist_matrix : ℕ → ℕ → ℚ) (iso : ℕ)
    (hexagons : List ℕ) : ScanState :=
  hexagons.foldl
    (fun st hex =>
      if hex = iso then st
      else
        let d := calc_avg_dist (samples iso) (samples hex) dist_matrix
        let st' : ScanState := ⟨st.best, some d⟩
        match d with
        | .num q => if pyLt d st.minDist then ⟨some (q, hex), st'.lastDist⟩ else st'
        | _ => st')
    ⟨none, none⟩

/-- Lines 341-371 for one isolated cell: scan all hexagons, store
`round(distance, 2)` — the loop variable `distance` of the LAST iteration, not
`min_dist` — under the key `frozenset([iso, closest_hex])`, scale that
singleton dict, and link (`some (pair, round(min_dist, 2))`) when the scaled
value is below the threshold, else keep the cell isolated (`none`).  The
degenerate cases in which the loop body never ran (`distance` unbound: a
`NameError` in Python) or no distance was a number (`closest_hex` still
`None`) are mapped to `Except.error`; no claim exercises them. -/
def fcpIso (samples : ℕ → List ℕ) (dist_matrix : ℕ → ℕ → ℚ) (hexagons : List ℕ)
    (threshold : ℚ) (pred : List (ℚ × ℚ)) (centroidDist : ℕ → ℕ → ℚ)
    (resolution : ℕ) (log2f : ℚ → ℚ) (iso : ℕ) :
    Except String (Option ((ℕ × ℕ) × ℚ)) := do
  let st := fcpScan samples dist_matrix iso hexagons
  match st.best, st.lastDist with
  | some (min_dist, closest_hex), some (.num distance) =>
    let all_dist : List (List ℕ × ℚ) := [([iso, closest_hex], round2 distance)]
    let scaled ← scale_distances all_dist pred centroidDist resolution log2f
    match (scaled.find? (fun e => e.1 = [iso, closest_hex])).map Prod.snd with
    | none => .error "KeyError"
    | some sv =>
      if pyLt sv (.num threshold) then .ok (some ((iso, closest_hex), round2 min_dist))
      else .ok none
  | _, _ => .error "degenerate scan"

/-- `find_closest_population` (lines 294-372): process every isolated cell,
collecting the linked pairs into `closest_populations` and the rest into
`new_isolated_hex`. -/
def find_closest_population (samples : ℕ → List ℕ) (hexagons : List ℕ)
    (dist_matrix : ℕ → ℕ → ℚ) (isolated_hex : List ℕ) (threshold : ℚ)
    (pred : List (ℚ × ℚ)) (centroidDist : ℕ → ℕ → ℚ) (resolution : ℕ)
    (log2f : ℚ → ℚ) :
    Except String (List ((ℕ × ℕ) × ℚ) × List ℕ) :=
  isolated_hex.foldlM
    (fun (acc : List ((ℕ × ℕ) × ℚ) × List ℕ) iso => do
      match ← fcpIso samples dist_matrix hexagons threshold pred centroidDist
          resolution log2f iso with
      | some link => pure (acc.1 ++ [link], acc.2)
      | none => pure (acc.1, acc.2 ++ [iso]))
    ([], [])

/-! ## Supporting lemmas -/

theorem pairSum_nil_right (xs : List ℕ) (m : ℕ → ℕ → ℚ) : pairSum xs [] m = 0 := by
  simp [pairSum]

theorem pairSum_comm (xs ys : List ℕ) (m : ℕ → ℕ → ℚ) (hsymm : ∀ a b, m a b = m b a) :
    pairSum xs ys m = pairSum ys xs m := by
  induction xs with
  | nil => simp [pairSum, pairSum_nil_right]
  | cons x xs ih =>
    have hrow :
        pairSum ys (x :: xs) m = (ys.map (fun b => m b x)).sum + pairSum ys xs m := by
      simp only [pairSum, List.map_cons, List.sum_cons, ← List.sum_map_add]
    rw [hrow, ← ih]
    simp only [pairSum, List.map_cons, List.sum_cons]
    congr 1
    exact congrArg List.sum (List.map_congr_left (fun b _ => hsymm x b))

theorem keyElem_singleton (c : ℕ) : keyElem {c} = c := by
  rw [keyElem, dif_pos (Finset.singleton_nonempty c)]
  exact Finset.min'_singleton c

theorem filter_card_length_partition (tb : List (Finset ℕ × ℚ))
    (hne : ∀ e ∈ tb, e.1.Nonempty) :
    (tb.filter (fun e => 1 < e.1.card)).length
      + (tb.filter (fun e => e.1.card = 1)).length = tb.length := by
  induction tb with
  | nil => rfl
  | cons e rest ih =>
    have hpos : 0 < e.1.card := (hne e (by simp)).card_pos
    have ihr := ih (fun x hx => hne x (List.mem_cons_of_mem e hx))
    by_cases hc : e.1.card = 1
    · have hnot : ¬(1 < e.1.card) := by omega
      simp [List.filter_cons, hc, hnot]
      omega
    · have hlt : 1 < e.1.card := by omega
      simp [List.filter_cons, hc, hlt]
      omega

/-! ## Claim C5 — `calc_avg_dist` on an empty cell -/

/-- Claim C5, counterexample: the claim says a call with an empty sample list
raises `EmptyCellError`, but no such exception class exists anywhere in the
repository and `calc_avg_dist` has no raise path at all: numpy's `mean` of the
empty flattened submatrix returns the float `nan` (with a RuntimeWarning), so
the call returns a value. -/
theorem calc_avg_dist_empty_returns_nan_cex :
    calc_avg_dist [] [0] (fun _ _ => 0) = .nan := by
  simp [calc_avg_dist]

/-- Claim C5, amended: whenever at least one of the two sample-ID lists is
empty, `calc_avg_dist` returns the float `nan` (numpy's mean of an empty
slice); it raises nothing. -/
theorem calc_avg_dist_empty_nan (xs ys : List ℕ) (m : ℕ → ℕ → ℚ)
    (h : xs = [] ∨ ys = []) : calc_avg_dist xs ys m = .nan := by
  rcases h with h | h <;> subst h <;> simp [calc_avg_dist]

/-- Witness for `calc_avg_dist_empty_nan` at a concrete input. -/
theorem calc_avg_dist_empty_nan_witness :
    (([] : List ℕ) = [] ∨ ([3] : List ℕ) = [])
      ∧ calc_avg_dist [] [3] (fun _ _ => 1) = .nan :=
  ⟨Or.inl rfl, calc_avg_dist_empty_nan [] [3] (fun _ _ => 1) (Or.inl rfl)⟩

/-! ## Claim C9 — symmetry of `calc_avg_dist` -/

/-- Claim C9: for a symmetric dissimilarity matrix the aggregated average
distance is order-independent, `calc_avg_dist(A, B, m) = calc_avg_dist(B, A, m)`
for all pairs of sample lists (including the empty cases, where both sides are
the same `nan` value). -/
theorem calc_avg_dist_symm (xs ys : List ℕ) (m : ℕ → ℕ → ℚ)
    (hsymm : ∀ a b, m a b = m b a) :
    calc_avg_dist xs ys m = calc_avg_dist ys xs m := by
  rcases xs with _ | ⟨x, xs⟩
  · simp [calc_avg_dist]
  rcases ys with _ | ⟨y, ys⟩
  · simp [calc_avg_dist]
  have hne : (x :: xs).length * (y :: ys).length ≠ 0 :=
    Nat.mul_ne_zero (by simp) (by simp)
  have hne' : (y :: ys).length * (x :: xs).length ≠ 0 :=
    Nat.mul_ne_zero (by simp) (by simp)
  simp only [calc_avg_dist, if_neg hne, if_neg hne']
  rw [pairSum_comm _ _ m hsymm, mul_comm (((x :: xs).length : ℚ))]

/-- Witness for `calc_avg_dist_symm` at a concrete input. -/
theorem calc_avg_dist_symm_witness :
    (∀ a b : ℕ, (fun _ _ => (2 : ℚ)) a b = (fun _ _ => (2 : ℚ)) b a)
      ∧ calc_avg_dist [0] [1] (fun _ _ => 2) = calc_avg_dist [1] [0] (fun _ _ => 2) :=
  ⟨fun _ _ => rfl, calc_avg_dist_symm [0] [1] (fun _ _ => 2) (fun _ _ => rfl)⟩

/-! ## Claim C10 — `get_hexagons` partitions the time-bin dict -/

/-- Claim C10: `get_hexagons` losslessly partitions its input dict.  Every
entry with a singleton key reappears, keyed by its lone cell and with its
value unchanged, in the hexagons dict; every entry whose key has more than one
element reappears unchanged in the pair dict; everything in the outputs comes
from the input; the keys covered by the two outputs are disjoint; and the two
outputs together have exactly as many entries as the input.  The hypothesis
that keys are nonempty reflects how the source builds them (`frozenset([a])`
or `frozenset([a, b])`). -/
theorem get_hexagons_partition (tb : List (Finset ℕ × ℚ))
    (hne : ∀ e ∈ tb, e.1.Nonempty) :
    (∀ e ∈ tb, e.1.card = 1 → ∃ c, e.1 = {c} ∧ (c, e.2) ∈ (get_hexagons tb).2)
      ∧ (∀ e ∈ tb, 1 < e.1.card → e ∈ (get_hexagons tb).1)
      ∧ (∀ e ∈ (get_hexagons tb).1, e ∈ tb ∧ 1 < e.1.card)
      ∧ (∀ c v, (c, v) ∈ (get_hexagons tb).2 → ({c}, v) ∈ tb)
      ∧ (∀ e ∈ (get_hexagons tb).1, ∀ c v, (c, v) ∈ (get_hexagons tb).2 → e.1 ≠ {c})
      ∧ (get_hexagons tb).1.length + (get_hexagons tb).2.length = tb.length := by
  refine ⟨?_, ?_, ?_, ?_, ?_, ?_⟩
  · intro e he h1
    obtain ⟨c, hc⟩ := Finset.card_eq_one.mp h1
    refine ⟨c, hc, List.mem_map.mpr ⟨e, List.mem_filter.mpr ⟨he, by simp [h1]⟩, ?_⟩⟩
    rw [hc, keyElem_singleton]
  · intro e he hlt
    exact List.mem_filter.mpr ⟨he, by simp [hlt]⟩
  · intro e he
    have := List.mem_filter.mp he
    exact ⟨this.1, by simpa using this.2⟩
  · intro c v hcv
    obtain ⟨a, ha, heq⟩ := List.mem_map.mp hcv
    have hmem := List.mem_filter.mp ha
    have hcard : a.1.card = 1 := by simpa using hmem.2
    obtain ⟨w, hw⟩ := Finset.card_eq_one.mp hcard
    have hkey : keyElem a.1 = w := by rw [hw, keyElem_singleton]
    have hc : w = c := by rw [← hkey]; exact congrArg Prod.fst heq
    have hv : a.2 = v := congrArg Prod.snd heq
    have ha1 : a = ({c}, v) := by
      obtain ⟨a1, a2⟩ := a
      simp only [Prod.mk.injEq]
      exact ⟨by rw [← hc]; simpa using hw, by simpa using hv⟩
    rw [← ha1]
    exact hmem.1
  · intro e he c v hcv
    have hlt : 1 < e.1.card := by simpa using (List.mem_filter.mp he).2
    intro hcontra
    rw [hcontra] at hlt
    simp at hlt
  · rw [get_hexagons, List.length_map]
    exact filter_card_length_partition tb hne

/-- Witness for `get_hexagons_partition` at a concrete input. -/
theorem get_hexagons_partition_witness :
    (∀ e ∈ [(({1, 2} : Finset ℕ), (5 : ℚ)), ({3}, 7)], e.1.Nonempty)
      ∧ (({1, 2} : Finset ℕ), (5 : ℚ))
          ∈ (get_hexagons [(({1, 2} : Finset ℕ), (5 : ℚ)), ({3}, 7)]).1 :=
  ⟨by decide,
    (get_hexagons_partition [(({1, 2} : Finset ℕ), (5 : ℚ)), ({3}, 7)] (by decide)).2.1
      (({1, 2} : Finset ℕ), (5 : ℚ)) (by simp) (by decide)⟩

/-! ## Claims C2 and C3 — the isolation test of `get_isolated_hex_and_barriers` -/

theorem mem_insertDedup {α : Type} [DecidableEq α] (l : List α) (x : α) :
    x ∈ insertDedup l ↔ x ∈ l := by
  suffices h : ∀ acc : List α,
      x ∈ l.foldl (fun acc y => if y ∈ acc then acc else acc ++ [y]) acc
        ↔ x ∈ acc ∨ x ∈ l by
    simpa [insertDedup] using h []
  induction l with
  | nil => intro acc; simp
  | cons y ys ih =>
    intro acc
    simp only [List.foldl_cons]
    by_cases hy : y ∈ acc
    · rw [if_pos hy, ih]
      constructor
      · rintro (h | h)
        · exact Or.inl h
        · exact Or.inr (List.mem_cons_of_mem _ h)
      · rintro (h | h)
        · exact Or.inl h
        · rcases List.mem_cons.mp h with rfl | h'
          · exact Or.inl hy
          · exact Or.inr h'
    · rw [if_neg hy, ih]
      constructor
      · rintro (h | h)
        · rcases List.mem_append.mp h with h' | h'
          · exact Or.inl h'
          · exact Or.inr (List.mem_cons.mpr (Or.inl (List.mem_singleton.mp h')))
        · exact Or.inr (List.mem_cons_of_mem _ h)
      · rintro (h | h)
        · exact Or.inl (List.mem_append_left _ h)
        · rcases List.mem_cons.mp h with rfl | h'
          · exact Or.inl (List.mem_append_right _ (List.mem_singleton.mpr rfl))
          · exact Or.inr h'

theorem mem_contrib_pair {a b c : ℕ} {v d : ℚ} :
    (d ∈ (if a = c then [v] else []) ++ (if b = c then [v] else []))
      ↔ ((a = c ∨ b = c) ∧ d = v) := by
  by_cases h1 : a = c <;> by_cases h2 : b = c <;> simp [h1, h2]

theorem all_hexDistFinal_iff (tb : List ((ℕ × ℕ) × ℚ)) (isDirect : ℕ → ℕ → Bool)
    (thr : ℚ) (c : ℕ) :
    ((hexDistFinal tb isDirect c).all (fun d => thr ≤ d) = true)
      ↔ ∀ e ∈ tb, (e.1.1 = c ∨ e.1.2 = c) → thr ≤ e.2 := by
  simp only [hexDistFinal, List.all_append, Bool.and_eq_true, hexDistPhase1, hexDistPhase2,
    List.all_eq_true, List.mem_flatMap, List.mem_filter, decide_eq_true_eq]
  constructor
  · rintro ⟨_, h2⟩ e he hc
    exact h2 e.2 ⟨e, he, mem_contrib_pair.mpr ⟨hc, rfl⟩⟩
  · intro h
    constructor
    · rintro d ⟨e, ⟨he, _⟩, hm⟩
      obtain ⟨hc, rfl⟩ := mem_contrib_pair.mp hm
      exact h e he hc
    · rintro d ⟨e, he, hm⟩
      obtain ⟨hc, rfl⟩ := mem_contrib_pair.mp hm
      exact h e he hc

theorem mem_hexDistKeys (tb : List ((ℕ × ℕ) × ℚ)) (isDirect : ℕ → ℕ → Bool) (c : ℕ) :
    c ∈ hexDistKeys tb isDirect ↔ ∃ e ∈ tb, e.1.1 = c ∨ e.1.2 = c := by
  simp only [hexDistKeys, mem_insertDedup, List.mem_append, List.mem_flatMap,
    List.mem_filter, List.mem_cons, List.mem_singleton]
  constructor
  · rintro (⟨e, ⟨he, _⟩, hm⟩ | ⟨e, he, hm⟩) <;>
      exact ⟨e, he, by tauto⟩
  · rintro ⟨e, he, hc⟩
    exact Or.inr ⟨e, he, by tauto⟩

/-- Claim C3, counterexample: with pairs `{0,1} ↦ 5` (a direct-neighbor pair)
and `{0,2} ↦ 1` (not direct neighbors) and threshold `3`, every distance in
cell 0's direct-neighbor list (just `5`) is at or above the threshold, yet
cell 0 is NOT classified isolated: the second loop (func.py lines 284-286)
also appended the non-direct distance `1` to its list. -/
theorem isolation_uses_all_pairs_cex :
    ((hexDistPhase1 [((0, 1), (5 : ℚ)), ((0, 2), 1)] (fun a b => a == 0 && b == 1) 0).all
        (fun d => (3 : ℚ) ≤ d) = true)
      ∧ 0 ∉ get_isolated_hex [((0, 1), (5 : ℚ)), ((0, 2), 1)] (fun a b => a == 0 && b == 1) 3 := by
  constructor
  · norm_num [hexDistPhase1, List.all_eq_true]
  · intro h
    have := (all_hexDistFinal_iff _ _ 3 0).mp (List.mem_filter.mp h).2 ((0, 2), 1)
      (by simp) (Or.inl rfl)
    norm_num at this

/-- Claim C3, amended: a cell is classified isolated iff it occurs in some
pair of the time bin and EVERY pair of the time bin containing it — direct
neighbor or not — has distance at or above the threshold: the second loop of
`get_isolated_hex_and_barriers` (lines 284-286) appends every pair's distance
to both members' lists before line 289 tests them, so non-direct-neighbor
distances do enter the test. -/
theorem isolated_iff_all_pairs (tb : List ((ℕ × ℕ) × ℚ)) (isDirect : ℕ → ℕ → Bool)
    (thr : ℚ) (c : ℕ) :
    c ∈ get_isolated_hex tb isDirect thr
      ↔ (∃ e ∈ tb, e.1.1 = c ∨ e.1.2 = c)
          ∧ ∀ e ∈ tb, (e.1.1 = c ∨ e.1.2 = c) → thr ≤ e.2 := by
  rw [get_isolated_hex, List.mem_filter, mem_hexDistKeys, all_hexDistFinal_iff]

/-- Claim C2, counterexample: with the single pair `{0,1} ↦ 5`, raising the
threshold from `3` to `7` REMOVES cell 0 from the isolated set (isolation
requires all distances `>= threshold`, so a larger threshold is harder to
meet), contradicting the claimed direction of monotonicity. -/
theorem isolation_threshold_monotone_cex :
    (3 : ℚ) ≤ 7
      ∧ 0 ∈ get_isolated_hex [((0, 1), (5 : ℚ))] (fun _ _ => false) 3
      ∧ 0 ∉ get_isolated_hex [((0, 1), (5 : ℚ))] (fun _ _ => false) 7 := by
  refine ⟨by norm_num, by decide, by decide⟩

/-- Claim C2, amended: the isolated set is ANTITONE in the threshold, not
monotone — for `t1 <= t2`, every cell isolated at `t2` is isolated at `t1`;
raising the threshold can only remove cells from the isolated set. -/
theorem isolated_hex_antitone (tb : List ((ℕ × ℕ) × ℚ)) (isDirect : ℕ → ℕ → Bool)
    (t1 t2 : ℚ) (h : t1 ≤ t2) (c : ℕ)
    (hc : c ∈ get_isolated_hex tb isDirect t2) :
    c ∈ get_isolated_hex tb isDirect t1 := by
  have h1 := List.mem_filter.mp hc
  refine List.mem_filter.mpr ⟨h1.1, ?_⟩
  have h2 := h1.2
  simp only [List.all_eq_true, decide_eq_true_eq] at h2 ⊢
  exact fun d hd => le_trans h (h2 d hd)

/-- Witness for `isolated_hex_antitone` at a concrete input. -/
theorem isolated_hex_antitone_witness :
    ((3 : ℚ) ≤ 7 ∧ 0 ∈ get_isolated_hex [((0, 1), (9 : ℚ))] (fun _ _ => false) 7)
      ∧ 0 ∈ get_isolated_hex [((0, 1), (9 : ℚ))] (fun _ _ => false) 3 := by
  have h7 : 0 ∈ get_isolated_hex [((0, 1), (9 : ℚ))] (fun _ _ => false) 7 := by
    decide
  exact ⟨⟨by norm_num, h7⟩,
    isolated_hex_antitone [((0, 1), (9 : ℚ))] (fun _ _ => false) 3 7 (by norm_num) 0 h7⟩

/-! ## Claim C7 — imputation never overwrites an observed cell -/

/-- Claim C7: for every barrier-intensity input and round count, the map
returned by `impute_missing_hexagons` shares no key with the input map: the
final comprehension (func.py line 421) drops every hexagon of the original
`barrier_hex`, so imputation only adds cells absent from the input. -/
theorem impute_missing_hexagons_disjoint (disk : ℕ → List ℕ)
    (barrier_hex : List (ℕ × ℚ)) (num_runs : ℕ) :
    ((impute_missing_hexagons disk barrier_hex num_runs).map Prod.fst).Disjoint
      (barrier_hex.map Prod.fst) := by
  intro c hc hcin
  obtain ⟨e, he, rfl⟩ := List.mem_map.mp hc
  have hfil := (List.mem_filter.mp he).2
  simp only [decide_eq_true_eq] at hfil
  exact hfil hcin

/-- Witness for `impute_missing_hexagons_disjoint` at a concrete input. -/
theorem impute_missing_hexagons_disjoint_witness :
    (0 ∈ ([((0 : ℕ), (1 : ℚ))].map Prod.fst))
      ∧ (0 ∉ (impute_missing_hexagons (fun _ => []) [((0 : ℕ), (1 : ℚ))] 1).map Prod.fst) :=
  ⟨by decide, fun h =>
    impute_missing_hexagons_disjoint (fun _ => []) [((0 : ℕ), (1 : ℚ))] 1 h (by decide)⟩

/-! ## Claim C4 — `get_neighbors` on a single cell -/

/-- Claim C4, counterexample: a single-cell input does NOT yield an empty
neighbor map; the code hands the one centroid straight to
`scipy.spatial.Delaunay`, which needs at least 3 planar points and raises
`QhullError`, so the adjacency computation errors out instead of returning. -/
theorem single_cell_neighbors_cex :
    resolve_neighbors delaunayModel (fun _ => (0, 0)) [0] = .error "QhullError" := by
  rfl

/-- Claim C4, amended: for any triangulation backend that (like qhull) fails
on fewer than 3 input points, the adjacency computation on a single occupied
cell propagates that failure as an error — no neighbor map, empty or
otherwise, is produced. -/
theorem single_cell_neighbors_error
    (tri : List (ℚ × ℚ) → Except String (List (ℕ × ℕ × ℕ)))
    (centroid : ℕ → ℚ × ℚ) (h0 : ℕ)
    (htri : ∀ pts : List (ℚ × ℚ), pts.length < 3 → ∃ e, tri pts = .error e) :
    ∃ e, resolve_neighbors tri centroid [h0] = .error e := by
  obtain ⟨e, he⟩ := htri [centroid h0] (by simp)
  exact ⟨e, by simp [resolve_neighbors, get_neighbors, he, Bind.bind, Except.bind]⟩

/-- Witness for `single_cell_neighbors_error` at a concrete input. -/
theorem single_cell_neighbors_error_witness :
    (∀ pts : List (ℚ × ℚ), pts.length < 3 → ∃ e, delaunayModel pts = .error e)
      ∧ ∃ e, resolve_neighbors delaunayModel (fun _ => (0, 0)) [0] = .error e :=
  ⟨fun pts h => ⟨"QhullError", by simp [delaunayModel, h]⟩,
    single_cell_neighbors_error delaunayModel (fun _ => (0, 0)) 0
      (fun pts h => ⟨"QhullError", by simp [delaunayModel, h]⟩)⟩

/-! ## Claim C6 — the scaled-distance zero rule -/

theorem foldl_select_mem (g : ℚ → ℚ → ℚ) (hg : ∀ b s, g b s = s ∨ g b s = b)
    (ys : List ℚ) (y : ℚ) : ys.foldl g y ∈ y :: ys := by
  induction ys generalizing y with
  | nil => simp
  | cons z zs ih =>
    simp only [List.foldl_cons]
    rcases List.mem_cons.mp (ih (g y z)) with h | h
    · rw [h]
      rcases hg y z with hz | hz <;> rw [hz] <;> simp
    · exact List.mem_cons.mpr (Or.inr (List.mem_cons_of_mem z h))

theorem nearestSupport_ok (support : List ℚ) (x : ℚ) (h : support ≠ []) :
    ∃ r, nearestSupport support x = .ok r ∧ r ∈ support := by
  match support with
  | [] => exact absurd rfl h
  | y :: ys =>
    refine ⟨_, rfl, ?_⟩
    exact foldl_select_mem _
      (fun b s => by by_cases hc : |s - x| < |b - x| <;> simp [hc]) ys y

theorem filter_fst_map_snd_cons (pred : List (ℚ × ℚ)) (km : ℚ)
    (hkm : km ∈ pred.map Prod.fst) :
    ∃ g gs, (pred.filter (fun r => r.1 = km)).map Prod.snd = g :: gs := by
  obtain ⟨p, hp, hpk⟩ := List.mem_map.mp hkm
  have hpf : p ∈ pred.filter (fun r => r.1 = km) :=
    List.mem_filter.mpr ⟨hp, by simp [hpk]⟩
  rcases hf : (pred.filter (fun r => r.1 = km)).map Prod.snd with _ | ⟨g, gs⟩
  · rw [List.map_eq_nil_iff] at hf
    rw [hf] at hpf
    exact absurd hpf (List.not_mem_nil p)
  · exact ⟨g, gs, hf⟩

theorem scaleStep_ok (pred : List (ℚ × ℚ)) (log2f : ℚ → ℚ) (kmd gen : ℚ)
    (hpred : pred ≠ []) :
    ∃ v, scaleStep pred log2f kmd gen = .ok v ∧ (gen = 0 → v = .num 0) := by
  by_cases hk : kmd ∈ pred.map Prod.fst
  · obtain ⟨g, gs, hgs⟩ := filter_fst_map_snd_cons pred kmd hk
    by_cases hg : gen = 0
    · refine ⟨.num 0, ?_, fun _ => rfl⟩
      simp [scaleStep, hk, hgs, hg, Bind.bind, Except.bind]
    · refine ⟨.num (log2f (gen / g)), ?_, fun h => absurd h hg⟩
      simp [scaleStep, hk, hgs, hg, Bind.bind, Except.bind]
  · have hsupp : pred.map Prod.fst ≠ [] := by
      simpa [List.map_eq_nil_iff] using hpred
    obtain ⟨r, hr, hrmem⟩ := nearestSupport_ok (pred.map Prod.fst) kmd hsupp
    obtain ⟨g, gs, hgs⟩ := filter_fst_map_snd_cons pred r hrmem
    by_cases hg : gen = 0
    · refine ⟨.num 0, ?_, fun _ => rfl⟩
      simp [scaleStep, hk, hr, hgs, hg, Bind.bind, Except.bind]
    · refine ⟨.num (log2f (gen / g)), ?_, fun h => absurd h hg⟩
      simp [scaleStep, hk, hr, hgs, hg, Bind.bind, Except.bind]

theorem scale_distances_ok (tb : List (List ℕ × ℚ)) (pred : List (ℚ × ℚ))
    (cd : ℕ → ℕ → ℚ) (res : ℕ) (log2f : ℚ → ℚ) (hpred : pred ≠ []) :
    ∃ out, scale_distances tb pred cd res log2f = .ok out
      ∧ ∀ p gen, (p, gen) ∈ tb → gen = 0 → (p, PyFloat.num 0) ∈ out := by
  induction tb with
  | nil => exact ⟨[], rfl, by simp⟩
  | cons e rest ih =>
    obtain ⟨e1, e2⟩ := e
    obtain ⟨out, hout, hmem⟩ := ih
    obtain ⟨v, hv, hv0⟩ := scaleStep_ok pred log2f (get_km_distance cd res e1) e2 hpred
    refine ⟨(e1, v) :: out, ?_, ?_⟩
    · simp [scale_distances, hv, hout, Bind.bind, Except.bind]
    · intro p gen hp hg
      rcases List.mem_cons.mp hp with heq | hmem'
      · subst hg
        obtain ⟨hp1, hp2⟩ := Prod.mk.injEq .. ▸ heq
        have hv' : v = PyFloat.num 0 := hv0 hp2.symm
        rw [hp1, hv']
        exact List.mem_cons_self _ _
      · exact List.mem_cons_of_mem _ (hmem p gen hmem' hg)

/-- Claim C6: for every input pair map and every (nonempty) prediction table,
a pair whose observed genetic dissimilarity is exactly `0` receives from
`scale_distances` the scaled value `0` — the exact number zero, which in
particular is neither `-inf` nor `nan` (func.py lines 480-481 short-circuit
before `log2` is ever applied).  The table is nonempty whenever it was fitted
by the LOESS branch or supplied from a previous fit. -/
theorem scale_distances_zero_rule (tb : List (List ℕ × ℚ)) (pred : List (ℚ × ℚ))
    (cd : ℕ → ℕ → ℚ) (res : ℕ) (log2f : ℚ → ℚ) (hpred : pred ≠ [])
    (p : List ℕ) (hp : (p, (0 : ℚ)) ∈ tb) :
    ∃ out, scale_distances tb pred cd res log2f = .ok out
      ∧ (p, PyFloat.num 0) ∈ out := by
  obtain ⟨out, hout, hmem⟩ := scale_distances_ok tb pred cd res log2f hpred
  exact ⟨out, hout, hmem p 0 hp rfl⟩

/-- Witness for `scale_distances_zero_rule` at a concrete input. -/
theorem scale_distances_zero_rule_witness :
    ([((5 : ℚ), (2 : ℚ))] ≠ [] ∧ (([1, 2] : List ℕ), (0 : ℚ)) ∈ [(([1, 2] : List ℕ), (0 : ℚ))])
      ∧ ∃ out, scale_distances [(([1, 2] : List ℕ), (0 : ℚ))] [((5 : ℚ), (2 : ℚ))]
          (fun _ _ => 3) 1 (fun q => q) = .ok out
        ∧ (([1, 2] : List ℕ), PyFloat.num 0) ∈ out :=
  ⟨⟨by simp, by simp⟩,
    scale_distances_zero_rule [(([1, 2] : List ℕ), (0 : ℚ))] [((5 : ℚ), (2 : ℚ))]
      (fun _ _ => 3) 1 (fun q => q) (by simp) [1, 2] (by simp)⟩

/-! ## Claim C8 — per-round acceptance rule of the imputation engine -/

theorem imputeContrib_val (v : ℚ) (ns : List ℕ) (acc : List ℕ × (ℕ → List ℚ))
    (c : ℕ) (hns : ns.Nodup) :
    (ns.foldl (imputeContribStep v) acc).2 c
      = acc.2 c ++ (if c ∈ ns then [v] else []) := by
  induction ns generalizing acc with
  | nil => simp
  | cons n ns ih =>
    simp only [List.foldl_cons]
    rw [ih _ (List.Nodup.of_cons hns)]
    by_cases hc : c = n
    · subst hc
      have hcn : c ∉ ns := (List.nodup_cons.mp hns).1
      simp [imputeContribStep, hcn]
    · simp [imputeContribStep, hc, List.mem_cons]

theorem imputeContrib_keys (v : ℚ) (ns : List ℕ) (acc : List ℕ × (ℕ → List ℚ))
    (c : ℕ) :
    c ∈ (ns.foldl (imputeContribStep v) acc).1 ↔ c ∈ acc.1 ∨ c ∈ ns := by
  induction ns generalizing acc with
  | nil => simp
  | cons n ns ih =>
    simp only [List.foldl_cons]
    rw [ih]
    by_cases hn : n ∈ acc.1
    · simp only [imputeContribStep, if_pos hn]
      constructor
      · rintro (h | h)
        · exact Or.inl h
        · exact Or.inr (List.mem_cons_of_mem _ h)
      · rintro (h | h)
        · exact Or.inl h
        · rcases List.mem_cons.mp h with rfl | h'
          · exact Or.inl hn
          · exact Or.inr h'
    · simp only [imputeContribStep, if_neg hn]
      constructor
      · rintro (h | h)
        · rcases List.mem_append.mp h with h' | h'
          · exact Or.inl h'
          · exact Or.inr (List.mem_cons.mpr (Or.inl (List.mem_singleton.mp h')))
        · exact Or.inr (List.mem_cons_of_mem _ h)
      · rintro (h | h)
        · exact Or.inl (List.mem_append_left _ h)
        · rcases List.mem_cons.mp h with rfl | h'
          · exact Or.inl (List.mem_append_right _ (List.mem_singleton.mpr rfl))
          · exact Or.inr h'

theorem imputeEntry_val (disk : ℕ → List ℕ) (keys : List ℕ) (bh : List (ℕ × ℚ))
    (acc : List ℕ × (ℕ → List ℚ)) (c : ℕ) (hdisk : ∀ h, (disk h).Nodup) :
    (bh.foldl (imputeEntryStep disk keys) acc).2 c
      = acc.2 c
        ++ (bh.filter
              (fun e => decide (c ∈ (disk e.1).filter (fun n => decide (n ∉ keys))))).map
            Prod.snd := by
  induction bh generalizing acc with
  | nil => simp
  | cons e bh ih =>
    simp only [List.foldl_cons, List.filter_cons]
    rw [ih]
    rw [imputeEntryStep,
      imputeContrib_val _ _ _ _ (List.Nodup.filter _ (hdisk e.1))]
    by_cases hc : c ∈ disk e.1 ∧ c ∉ keys
    · simp [List.mem_filter, hc]
    · simp [List.mem_filter, hc]

theorem imputeEntry_keys (disk : ℕ → List ℕ) (keys : List ℕ) (bh : List (ℕ × ℚ))
    (acc : List ℕ × (ℕ → List ℚ)) (c : ℕ) :
    c ∈ (bh.foldl (imputeEntryStep disk keys) acc).1
      ↔ c ∈ acc.1 ∨ ∃ e ∈ bh, c ∈ (disk e.1).filter (fun n => decide (n ∉ keys)) := by
  induction bh generalizing acc with
  | nil => simp
  | cons e bh ih =>
    simp only [List.foldl_cons]
    rw [ih, imputeEntryStep, imputeContrib_keys]
    simp only [List.mem_cons]
    constructor
    · rintro ((h | h) | ⟨e', he', h⟩)
      · exact Or.inl h
      · exact Or.inr ⟨e, Or.inl rfl, h⟩
      · exact Or.inr ⟨e', Or.inr he', h⟩
    · rintro (h | ⟨e', he' | he', h⟩)
      · exact Or.inl (Or.inl h)
      · subst he'
        exact Or.inl (Or.inr h)
      · exact Or.inr ⟨e', he', h⟩

/-- The list of values collected by `new_barrier_hex[c]` over one round, as
characterized by `imputeEntry_val`: the values of the resolved cells whose
not-yet-resolved disk contains `c`, in dict order. -/
def contribList (disk : ℕ → List ℕ) (bh : List (ℕ × ℚ)) (c : ℕ) : List ℚ :=
  (bh.filter (fun e =>
    decide (c ∈ (disk e.1).filter (fun n => decide (n ∉ bh.map Prod.fst))))).map Prod.snd

/-- The already-resolved ring-1 neighbors of `c`: the entries of the resolved
dict whose cell lies in `c`'s disk (for the symmetric h3 `grid_disk` this is
the same as the resolved cells whose disk contains `c`). -/
def resolvedNbrs (disk : ℕ → List ℕ) (bh : List (ℕ × ℚ)) (c : ℕ) : List (ℕ × ℚ) :=
  bh.filter (fun e => decide (e.1 ∈ disk c))

theorem mem_map_pairSelf {l : List ℕ} {f : ℕ → ℚ} {c : ℕ} {v : ℚ} :
    (c, v) ∈ l.map (fun x => (x, f x)) ↔ c ∈ l ∧ v = f c := by
  constructor
  · intro h
    obtain ⟨x, hx, heq⟩ := List.mem_map.mp h
    have h1 : x = c := congrArg Prod.fst heq
    rw [h1] at hx heq
    exact ⟨hx, (congrArg Prod.snd heq).symm⟩
  · rintro ⟨h1, rfl⟩
    exact List.mem_map.mpr ⟨c, h1, rfl⟩

theorem mem_imputeRound (disk : ℕ → List ℕ) (bh : List (ℕ × ℚ))
    (hdisk : ∀ h, (disk h).Nodup) (c : ℕ) (v : ℚ) :
    (c, v) ∈ imputeRound disk bh
      ↔ (∃ e ∈ bh, c ∈ (disk e.1).filter (fun n => decide (n ∉ bh.map Prod.fst)))
          ∧ 3 ≤ (contribList disk bh c).length
          ∧ v = round2 ((contribList disk bh c).sum / ((contribList disk bh c).length : ℚ)) := by
  have hval : ∀ x, (bh.foldl (imputeEntryStep disk (bh.map Prod.fst))
      (([] : List ℕ), fun _ => ([] : List ℚ))).2 x = contribList disk bh x := by
    intro x
    rw [imputeEntry_val disk (bh.map Prod.fst) bh _ x hdisk, contribList]
    simp
  simp only [imputeRound]
  simp only [hval]
  rw [mem_map_pairSelf, List.mem_filter]
  simp only [decide_eq_true_eq]
  rw [imputeEntry_keys]
  simp only [List.not_mem_nil, false_or, and_assoc]

/-- Claim C8: in every imputation round, a previously-unresolved cell enters
the resolved set only with at least 3 distinct already-resolved ring-1
neighbors contributing (the resolved cells `h` with the cell in
`grid_disk(h, 1)`, i.e. — `grid_disk` being symmetric — the resolved members
of the cell's own disk), its value is the rounded arithmetic mean of exactly
those neighbors' values, a cell with at most 2 such contributors is not
resolved in that round, and round `n + 1` updates the cumulative resolved
dict of round `n` with that round's output. -/
theorem imputeRound_acceptance (disk : ℕ → List ℕ) (bh : List (ℕ × ℚ))
    (hdisk : ∀ h, (disk h).Nodup)
    (hsymm : ∀ a b, a ∈ disk b ↔ b ∈ disk a)
    (hkeys : (bh.map Prod.fst).Nodup) (c : ℕ) :
    (∀ v, (c, v) ∈ imputeRound disk bh →
        c ∉ bh.map Prod.fst
          ∧ 3 ≤ (resolvedNbrs disk bh c).length
          ∧ v = round2 (((resolvedNbrs disk bh c).map Prod.snd).sum
              / (((resolvedNbrs disk bh c).length : ℚ))))
      ∧ ((resolvedNbrs disk bh c).length ≤ 2 →
          c ∉ (imputeRound disk bh).map Prod.fst)
      ∧ (∀ n, imputeCum disk bh (n + 1)
          = dictUpdate (imputeCum disk bh n) (imputeRound disk (imputeCum disk bh n))) := by
  have hcongr : c ∉ bh.map Prod.fst →
      contribList disk bh c = (resolvedNbrs disk bh c).map Prod.snd := by
    intro hc
    rw [contribList, resolvedNbrs]
    congr 1
    apply List.filter_congr
    intro e _
    simp only [decide_eq_decide, List.mem_filter, decide_eq_true_eq]
    constructor
    · rintro ⟨h1, _⟩
      exact (hsymm c e.1).mp h1
    · intro h1
      exact ⟨(hsymm c e.1).mpr h1, hc⟩
  refine ⟨?_, ?_, fun n => rfl⟩
  · intro v hv
    obtain ⟨hex, hlen, hval⟩ := (mem_imputeRound disk bh hdisk c v).mp hv
    have hc : c ∉ bh.map Prod.fst := by
      obtain ⟨e, _, hce⟩ := hex
      simpa using (List.mem_filter.mp hce).2
    rw [hcongr hc] at hlen hval
    refine ⟨hc, by simpa using hlen, ?_⟩
    rw [hval]
    simp
  · intro hle hmem
    obtain ⟨e, he, heq⟩ := List.mem_map.mp hmem
    have hee : e = (c, e.2) := by rw [← heq]
    rw [hee] at he
    obtain ⟨hex, hlen, -⟩ := (mem_imputeRound disk bh hdisk c e.2).mp he
    have hc : c ∉ bh.map Prod.fst := by
      obtain ⟨e', _, hce⟩ := hex
      simpa using (List.mem_filter.mp hce).2
    rw [hcongr hc] at hlen
    simp only [List.length_map] at hlen
    omega

/-- Witness neighborhood for `imputeRound_acceptance`: cells `0, 1, 2, 3`
mutually adjacent, everything else isolated. -/
def diskW : ℕ → List ℕ := fun h => if h ≤ 3 then [0, 1, 2, 3] else []

/-- Witness barrier map for `imputeRound_acceptance`. -/
def bhW : List (ℕ × ℚ) := [(1, 2), (2, 4), (3, 6)]

/-- Witness for `imputeRound_acceptance` at a concrete input. -/
theorem imputeRound_acceptance_witness :
    ((∀ h, (diskW h).Nodup) ∧ (∀ a b, a ∈ diskW b ↔ b ∈ diskW a)
        ∧ (bhW.map Prod.fst).Nodup)
      ∧ ((∀ v, (0, v) ∈ imputeRound diskW bhW →
            0 ∉ bhW.map Prod.fst
              ∧ 3 ≤ (bhW.filter (fun e => decide (e.1 ∈ diskW 0))).length
              ∧ v = round2
                  ((((bhW.filter (fun e => decide (e.1 ∈ diskW 0))).map Prod.snd).sum)
                    / (((bhW.filter (fun e => decide (e.1 ∈ diskW 0))).length : ℚ))))
          ∧ ((bhW.filter (fun e => decide (e.1 ∈ diskW 0))).length ≤ 2 →
              0 ∉ (imputeRound diskW bhW).map Prod.fst)
          ∧ (∀ n, imputeCum diskW bhW (n + 1)
              = dictUpdate (imputeCum diskW bhW n)
                  (imputeRound diskW (imputeCum diskW bhW n)))) := by
  have hdisk : ∀ h, (diskW h).Nodup := by
    intro h
    unfold diskW
    split <;> decide
  have hsymm : ∀ a b, a ∈ diskW b ↔ b ∈ diskW a := by
    intro a b
    unfold diskW
    by_cases ha : a ≤ 3 <;> by_cases hb : b ≤ 3 <;> simp [ha, hb] <;> omega
  have hkeys : (bhW.map Prod.fst).Nodup := by decide
  exact ⟨⟨hdisk, hsymm, hkeys⟩, imputeRound_acceptance diskW bhW hdisk hsymm hkeys 0⟩

/-! ## Claim C1 — what quantity does `find_closest_population` scale?

The failing input: isolated cell `0` and occupied cells `0, 1, 2`, one sample
each (`10`, `11`, `12`).  The dissimilarity matrix puts cell 1 at average
distance `0.1` from cell 0 (the minimum) and cell 2 at `0.9` (the distance of
the last loop iteration).  The prediction table expects dissimilarity `0.3`
at the geographic distance `5` of every pair, and the threshold is `0`.
Scaling the kept minimum gives `round(log2(0.1 / 0.3), 2) = -1.58 < 0`, so by
the claim cell 0 must be linked to cell 1; but line 361 of func.py scales the
loop variable `distance` — the LAST distance `0.9`, giving
`round(log2(0.9 / 0.3), 2) = 1.58 >= 0` — and the cell wrongly stays
isolated. -/

/-- Sample lists of the C1 failing input. -/
def samplesC1 : ℕ → List ℕ := fun c =>
  if c = 0 then [10] else if c = 1 then [11] else if c = 2 then [12] else []

/-- Dissimilarity matrix of the C1 failing input. -/
def matrixC1 : ℕ → ℕ → ℚ := fun a b =>
  if a = 10 ∧ b = 11 ∨ a = 11 ∧ b = 10 then 1 / 10
  else if a = 10 ∧ b = 12 ∨ a = 12 ∧ b = 10 then 9 / 10 else 0

/-- `round(math.log2(x), 2)` at the two ratios the C1 input produces:
`log2(1/3) = -1.5849...` rounds to `-1.58` and `log2(3) = 1.5849...` rounds
to `1.58`. -/
def log2C1 : ℚ → ℚ := fun q => if q < 1 then -(158 / 100) else 158 / 100

/-- Claim C1, failing input: the scan over the bin correctly keeps the
minimum `0.1` (towards cell 1) while the loop variable `distance` ends at
`0.9`; scaling the rounded MINIMUM yields `-1.58`, which is below the
threshold `0`, so under the claim cell 0 is linked to cell 1; but
`find_closest_population` returns no link and keeps cell 0 isolated, because
line 361 stores `round(distance, 2)` — the last distance, not `min_dist` —
into the dict that is scaled and compared with the threshold. -/
theorem find_closest_population_scales_last_not_min :
    fcpScan samplesC1 matrixC1 0 [0, 1, 2]
        = ⟨some (1 / 10, 1), some (.num (9 / 10))⟩
      ∧ scaleStep [(5, 3 / 10)] log2C1 5 (round2 (1 / 10)) = .ok (.num (-(158 / 100)))
      ∧ pyLt (.num (-(158 / 100))) (.num 0) = true
      ∧ find_closest_population samplesC1 [0, 1, 2] matrixC1 [0] 0 [(5, 3 / 10)]
          (fun _ _ => 5) 2 log2C1 = .ok ([], [0]) := by
  refine ⟨?_, ?_, ?_, ?_⟩
  · norm_num [fcpScan, calc_avg_dist, pairSum, samplesC1, matrixC1, pyLt, ScanState.minDist]
  · norm_num [scaleStep, nearestSupport, round2, round_eq, log2C1, List.filter,
      Bind.bind, Except.bind]
  · norm_num [pyLt]
  · norm_num [find_closest_population, fcpIso, fcpScan, calc_avg_dist, pairSum, samplesC1,
      matrixC1, pyLt, ScanState.minDist, scale_distances, scaleStep, get_km_distance,
      nearestSupport, round2, round_eq, log2C1, List.foldlM, List.find?, List.filter,
      Bind.bind, Except.bind, Pure.pure, Except.pure]

end Stargen
